import Mathlib

/-!
# A shallow embedding of the lisgo interpreter

This file embeds the two Go source files of the lisgo repository:

* `lis.go` (the unnamed full variant): tokenizer, reader, `Procedure`
  (closures), chained mutable `Env` frames, and the recursive `eval`
  with the special forms `quote`, `if`, `define`, `set!`, `lambda`,
  plus the single `+` primitive of `standardEnv`.
* `lispycalc.go` (the reduced variant): same tokenizer/reader/atom; its
  `isFalse` helper and `if` dispatch condition are embedded separately
  so the two variants' conditional policies can be compared.

Modelling conventions:

* Go `interface{}` trees are the inductive `Value`; the Go `nil`
  interface value (returned by map reads of absent keys and by the
  fall-through branches of `eval`) is `Value.nil`.
* Go panics (both explicit `panic("...")` calls and runtime
  index-out-of-range panics from slice indexing) are `Except.error`
  with an `Err` naming the panic site.
* The mutable heap of `Env` frames is an explicit `Store` (a list of
  frames); a Go `*Env` pointer is the frame's index in the store, which
  is stable because frames are only ever appended or updated in place.
* Go `int` is 64-bit; addition wraps via `wrap64`, and integer parsing
  rejects literals outside the `int64` range exactly as
  `strconv.ParseInt` does.
* Recursive Go functions without a structural termination argument
  (`readFromTokens`, `eval`) take an explicit fuel parameter; running
  out of fuel is the distinguished result `Err.outOfFuel`, which a
  terminating Go execution never produces once the fuel is large
  enough.
-/

namespace Lisgo

/-- The runtime values of the interpreter: the `interface{}` trees that
`parse` produces and `eval` consumes.  `int`, `sym` (Go `string`),
`bool`, and `list` (`[]interface{}`) come from the reader and the
environment; `prim` is the one `func([]interface{})interface{}` value
the program ever creates (the `+` closure of `standardEnv`); `proc` is
a `*Procedure` (parameter names, body expression, captured environment
frame index); `nil` is the Go nil interface value. -/
inductive Value where
  | int  : Int → Value
  | sym  : String → Value
  | bool : Bool → Value
  | list : List Value → Value
  | prim : Value
  | proc : List String → Value → Nat → Value
  | nil  : Value
deriving Repr

/-- The failure modes of the interpreter.  Each constructor names one Go
panic site: `eofWhileReading` is `panic("unexpected EOF while reading")`,
`unexpectedClose` is `panic("unexpected )")`, `indexOutOfRange` is the
runtime panic from out-of-bounds slice indexing, `emptyList` is
`panic("empty list")`, and so on.  `outOfFuel` is the embedding's
recursion-budget artifact. -/
inductive Err where
  | eofWhileReading
  | unexpectedClose
  | indexOutOfRange
  | emptyList
  | defineNeedsSymbol
  | setNeedsSymbol
  | parmsNeedsSymbols
  | parmsMustBeList
  | plusNeedsNumbers
  | outOfFuel
deriving Repr, DecidableEq

/-! ## Lexer (`tokenize`) -/

/-- The character class of Go's regexp `\s` (RE2): tab, newline, form
feed, carriage return, space. -/
def isGoRegexSpace (c : Char) : Bool :=
  c = '\t' || c = '\n' || c = '\x0c' || c = '\r' || c = ' '

/-- The character class of Go's `unicode.IsSpace` restricted to the
Latin-1 range (all characters this interpreter's inputs can contain):
the regexp `\s` class plus vertical tab, NEL, and NBSP. -/
def isGoUnicodeSpace (c : Char) : Bool :=
  isGoRegexSpace c || c = '\x0b' || c = '\u0085' || c = '\u00A0'

/-- The two sequential `strings.Replace` calls of `tokenize`: every `(`
becomes ` ( ` and every `)` becomes ` ) `.  (Because the replacement for
`(` contains no `)`, running the two replacements in sequence is the
same as this single character-wise pass.) -/
def expandParens : List Char → List Char
  | [] => []
  | c :: rest =>
    (if c = '(' then [' ', '(', ' ']
     else if c = ')' then [' ', ')', ' ']
     else [c]) ++ expandParens rest

/-- `strings.TrimSpace`: drop leading and trailing Unicode whitespace. -/
def goTrimSpace (cs : List Char) : List Char :=
  ((cs.dropWhile isGoUnicodeSpace).reverse.dropWhile isGoUnicodeSpace).reverse

/-- `regexp.MustCompile("\\s+").Split(s, -1)`: split at every maximal
run of whitespace, keeping the (possibly empty) pieces between runs.
On the empty string the regexp does not match, so the result is the
one-element list `[""]`, exactly as Go's `Split` behaves.
The accumulator state is `some acc` while a piece is being collected
(`acc` holds its characters in reverse) and `none` while inside a
whitespace run. -/
def splitWsAux : List Char → Option (List Char) → List String
  | [], some acc => [String.mk acc.reverse]
  | [], none => [""]
  | c :: rest, some acc =>
    if isGoRegexSpace c then
      String.mk acc.reverse :: splitWsAux rest none
    else
      splitWsAux rest (some (c :: acc))
  | c :: rest, none =>
    if isGoRegexSpace c then
      splitWsAux rest none
    else
      splitWsAux rest (some [c])

def splitWs (cs : List Char) : List String := splitWsAux cs (some [])

/-- `tokenize` from both source files: surround parens with spaces, trim,
split on whitespace runs. -/
def tokenize (chars : String) : List String :=
  splitWs (goTrimSpace (expandParens chars.data))

/-! ## Atom (`fmt.Sscan` into an `int`) -/

/-- Decimal value of a digit list. -/
def digitsVal (ds : List Char) : Nat :=
  ds.foldl (fun a c => 10 * a + (c.toNat - '0'.toNat)) 0

/-- Models `fmt.Sscan(token, &n)` scanning one Go `int` (verb `%v`):
skip leading whitespace, accept an optional `+`/`-` sign, then consume
the maximal run of decimal digits — leaving any trailing characters
unread, so `"12abc"` scans as `12` with no error.  The scan fails
(`none`) when no digit follows the optional sign, or when
`strconv.ParseInt` rejects the value as outside the `int64` range.
(The base-prefixed forms `0x…`/`0b…`/`0o…`, whose handling varies
across Go releases, never arise here: tokens relevant to the
specification are plain signed decimal literals or non-numeric
symbols.)  `scanSign` is the optional-sign step (`s.accept(sign)`). -/
def scanSign : List Char → Int × List Char
  | '+' :: r => (1, r)
  | '-' :: r => (-1, r)
  | cs => (1, cs)

def sscanInt (token : String) : Option Int :=
  let cs := token.data.dropWhile isGoUnicodeSpace
  let signed := scanSign cs
  let digits := signed.2.takeWhile Char.isDigit
  if digits = [] then none
  else
    let n : Int := signed.1 * (digitsVal digits : Int)
    if -(2 ^ 63) ≤ n ∧ n ≤ 2 ^ 63 - 1 then some n else none

/-- `atom` from both source files: a token that `fmt.Sscan` can read an
`int` from becomes that number; every other token is a symbol carrying
the raw token text. -/
def atom (token : String) : Value :=
  match sscanInt token with
  | some n => .int n
  | none => .sym token

/-! ## Reader (`pop`, `readFromTokens`) -/

/-- `pop`: first token and remainder; `("", [])` on an empty slice. -/
def pop : List String → String × List String
  | [] => ("", [])
  | t :: ts => (t, ts)

mutual

/-- `readFromTokens`: panic on zero tokens; on `(` loop reading elements
until the lookahead token is `)`; a bare `)` panics; otherwise the token
is an atom. -/
def readFromTokens : Nat → List String → Except Err (Value × List String)
  | 0, _ => .error .outOfFuel
  | fuel + 1, tokens =>
    if tokens.length = 0 then
      .error .eofWhileReading
    else
      let p := pop tokens
      if p.1 = "(" then
        readListLoop fuel p.2 []
      else if p.1 = ")" then
        .error .unexpectedClose
      else
        .ok (atom p.1, p.2)

/-- The `for tokens[0] != ")"` loop inside `readFromTokens`.  The
lookahead `tokens[0]` on an exhausted token slice is Go's runtime
index-out-of-range panic. -/
def readListLoop : Nat → List String → List Value → Except Err (Value × List String)
  | 0, _, _ => .error .outOfFuel
  | fuel + 1, tokens, acc =>
    match tokens with
    | [] => .error .indexOutOfRange
    | t :: rest =>
      if t = ")" then
        .ok (.list acc, rest)
      else
        match readFromTokens fuel tokens with
        | .error e => .error e
        | .ok (s, remaining) => readListLoop fuel remaining (acc ++ [s])

end

/-- `parse`: tokenize, read ONE expression, and silently discard the
leftover tokens (`s, _ := readFromTokens(tokens)`). -/
def parse (fuel : Nat) (program : String) : Except Err Value :=
  match readFromTokens fuel (tokenize program) with
  | .error e => .error e
  | .ok (s, _) => .ok s

end Lisgo

namespace Lisgo

/-! ## Environments (`Env`, `newEnv`, `Env.Find`, `standardEnv`) -/

/-- One `Env` struct: the `inner` map (association list; keys unique)
and the `outer` pointer (a store index, `none` for the global frame). -/
structure Frame where
  bindings : List (String × Value)
  outer : Option Nat
deriving Repr

/-- The heap of all allocated `Env` frames; a Go `*Env` is an index. -/
abbrev Store := List Frame

/-- Reading a Go map: the value under `k`, or the zero value `nil` when
the key is absent. -/
def mapGet (m : List (String × Value)) (k : String) : Value :=
  match m with
  | [] => .nil
  | (k1, v) :: rest => if k1 = k then v else mapGet rest k

/-- Writing a Go map: replace the binding of `k` in place, or append it. -/
def mapSet (m : List (String × Value)) (k : String) (v : Value) : List (String × Value) :=
  match m with
  | [] => [(k, v)]
  | (k1, v1) :: rest => if k1 = k then (k, v) :: rest else (k1, v1) :: mapSet rest k v

/-- Dereference a frame pointer.  Every index that arises during
evaluation is in range; the default frame is never actually read. -/
def getFrame (σ : Store) (i : Nat) : Frame := (σ.get? i).getD ⟨[], none⟩

/-- `env.inner[k]` for the frame at index `i`. -/
def frameRead (σ : Store) (i : Nat) (k : String) : Value :=
  mapGet (getFrame σ i).bindings k

/-- `env.inner[k] = v` for the frame at index `i` (in-place heap update). -/
def storeInsert (σ : Store) (i : Nat) (k : String) (v : Value) : Store :=
  σ.set i ⟨mapSet (getFrame σ i).bindings k v, (getFrame σ i).outer⟩

/-- `Value.isNil` is the Go comparison `x != nil` (negated): the interface
value is the nil interface. -/
def Value.isNil : Value → Bool
  | .nil => true
  | _ => false

/-- `Env.Find`, one step at a time:
`if env.inner[v] != nil || env.outer == nil { return env }` and otherwise
recurse into the outer frame.  The fuel bounds the chain length; since
outer pointers always refer to previously allocated frames (index
strictly smaller), a fuel of `i + 1` never runs out on well-formed
stores. -/
def findAux (σ : Store) : Nat → Nat → String → Nat
  | 0, i, _ => i
  | fuel + 1, i, v =>
    if (frameRead σ i v).isNil then
      match (getFrame σ i).outer with
      | none => i
      | some j => findAux σ fuel j v
    else i

/-- `Env.Find`: the innermost frame of the chain starting at `i` whose
map holds a non-nil value for `v`; the chain's root frame when there is
none. -/
def Find (σ : Store) (i : Nat) (v : String) : Nat := findAux σ (i + 1) i v

/-- Store well-formedness: every outer pointer refers to an earlier
frame.  Every store reachable from `standardEnv` satisfies this because
`newEnv` links a fresh frame to an existing one. -/
def WFStore (σ : Store) : Prop :=
  ∀ i fr j, σ.get? i = some fr → fr.outer = some j → j < i

/-- `standardEnv` (the lis.go variant): the global frame binding
`false`, `true`, and the `+` primitive. -/
def standardEnv : Store :=
  [⟨[("false", .bool false), ("true", .bool true), ("+", .prim)], none⟩]

/-! ## The `+` primitive -/

/-- Indexing a Go slice: out-of-bounds indexing panics. -/
def listGet (l : List Value) (i : Nat) : Except Err Value :=
  match l.get? i with
  | some v => .ok v
  | none => .error .indexOutOfRange

/-- Two's-complement wrap-around of Go's 64-bit `int` addition. -/
def wrap64 (z : Int) : Int := (z + 2 ^ 63) % 2 ^ 64 - 2 ^ 63

/-- The `+` closure installed by `standardEnv`: read `args[0]` and
`args[1]` (panicking if the slice is shorter), type-assert both to
`int` (panicking with `"+ needs numbers"` if either assertion fails),
and return their sum.  Arguments beyond the first two are never
examined. -/
def primAdd (args : List Value) : Except Err Value :=
  match listGet args 0, listGet args 1 with
  | .ok a0, .ok a1 =>
    match a0, a1 with
    | .int n, .int m => .ok (.int (wrap64 (n + m)))
    | _, _ => .error .plusNeedsNumbers
  | .error e, _ => .error e
  | _, .error e => .error e

/-! ## The two `isFalse` variants -/

/-- `isFalse` from lis.go (part_000): `b, ok := x.(bool); return !b, ok`.
A failed type assertion yields the zero value `false` for `b`, so the
returned pair for a non-bool is `(true, false)`. -/
def isFalse (x : Value) : Bool × Bool :=
  match x with
  | .bool b => (!b, true)
  | _ => (!false, false)

/-- `isFalse` from lispycalc.go: `b, ok := x.(bool); return b, ok`. -/
def isFalseCalc (x : Value) : Bool × Bool :=
  match x with
  | .bool b => (b, true)
  | _ => (false, false)

/-- The branch condition of lis.go's `if` case: alt is evaluated when
`b, ok := isFalse(r); ok && b`. -/
def lisgoTakesAlt (r : Value) : Bool := (isFalse r).2 && (isFalse r).1

/-- The branch condition of lispycalc.go's `if` case: alt is evaluated
when `b, ok := isFalse(r); ok && !b`. -/
def calcTakesAlt (r : Value) : Bool := (isFalseCalc r).2 && !(isFalseCalc r).1

/-! ## Procedures (`toStrings`, `newEnv`) -/

/-- The loop of `toStrings`: every parameter must be a symbol. -/
def toStringsLoop : List Value → Except Err (List String)
  | [] => .ok []
  | x :: rest =>
    match x with
    | .sym s =>
      match toStringsLoop rest with
      | .ok strs => .ok (s :: strs)
      | .error e => .error e
    | _ => .error .parmsNeedsSymbols

/-- `toStrings`: the lambda parameter list must be a list of symbols. -/
def toStrings (parms : Value) : Except Err (List String) :=
  match parms with
  | .list l => toStringsLoop l
  | _ => .error .parmsMustBeList

/-- The binding loop of `newEnv`: `env.inner[parms[i]] = args[i]` for
each `i < len(parms)`; indexing `args[i]` with too few arguments is the
runtime index-out-of-range panic; extra arguments are ignored. -/
def newEnvLoop : List String → List Value → List (String × Value) → Except Err (List (String × Value))
  | [], _, m => .ok m
  | _ :: _, [], _ => .error .indexOutOfRange
  | p :: ps, a :: args, m => newEnvLoop ps args (mapSet m p a)

end Lisgo

namespace Lisgo

/-! ## Evaluator (`eval`, `makeArgs`, `Procedure.Call`) -/

mutual

/-- `eval` from lis.go.  A symbol is looked up through `Find` (absent
names read as `nil`); non-list non-symbol values are self-evaluating;
the empty list panics; a list headed by one of the five special-form
symbols is handled by the `switch`; every other list is an application.
Slice accesses `l[1]`, `l[2]`, `l[3]` go through `listGet` and panic
out of range exactly as Go does. -/
def eval : Nat → Value → Nat → Store → Except Err (Value × Store)
  | 0, _, _, _ => .error .outOfFuel
  | fuel + 1, x, envId, σ =>
    match x with
    | .sym s => .ok (frameRead σ (Find σ envId s) s, σ)
    | .list [] => .error .emptyList
    | .list (l0 :: ls) =>
      match l0 with
      | .sym s =>
        if s = "quote" then
          match listGet (l0 :: ls) 1 with
          | .ok v => .ok (v, σ)
          | .error e => .error e
        else if s = "if" then
          match listGet (l0 :: ls) 1, listGet (l0 :: ls) 2, listGet (l0 :: ls) 3 with
          | .ok test, .ok conseq, .ok alt =>
            match eval fuel test envId σ with
            | .ok (r, σ1) =>
              if (isFalse r).2 && (isFalse r).1 then eval fuel alt envId σ1
              else eval fuel conseq envId σ1
            | .error e => .error e
          | .error e, _, _ => .error e
          | _, .error e, _ => .error e
          | _, _, .error e => .error e
        else if s = "define" then
          match listGet (l0 :: ls) 1, listGet (l0 :: ls) 2 with
          | .ok car, .ok cdr =>
            match car with
            | .sym name =>
              match eval fuel cdr envId σ with
              | .ok (v, σ1) =>
                let σ2 := storeInsert σ1 envId name v
                .ok (frameRead σ2 envId name, σ2)
              | .error e => .error e
            | _ => .error .defineNeedsSymbol
          | .error e, _ => .error e
          | _, .error e => .error e
        else if s = "set!" then
          match listGet (l0 :: ls) 1, listGet (l0 :: ls) 2 with
          | .ok v1, .ok exp =>
            match v1 with
            | .sym name =>
              let eId := Find σ envId name
              match eval fuel exp envId σ with
              | .ok (val, σ1) =>
                let σ2 := storeInsert σ1 eId name val
                .ok (frameRead σ2 eId name, σ2)
              | .error e => .error e
            | _ => .error .setNeedsSymbol
          | .error e, _ => .error e
          | _, .error e => .error e
        else if s = "lambda" then
          match listGet (l0 :: ls) 1, listGet (l0 :: ls) 2 with
          | .ok parms, .ok body =>
            match toStrings parms with
            | .ok strs => .ok (.proc strs body envId, σ)
            | .error e => .error e
          | .error e, _ => .error e
          | _, .error e => .error e
        else
          evalApply fuel l0 ls envId σ
      | _ => evalApply fuel l0 ls envId σ
    | other => .ok (other, σ)
termination_by structural fuel => fuel

/-- The application tail of `eval`: evaluate the head, evaluate the
arguments left to right, dispatch on the evaluated head — a primitive
function, a `*Procedure`, or neither (in which case the Go code falls
through to `return nil` without any error). -/
def evalApply : Nat → Value → List Value → Nat → Store → Except Err (Value × Store)
  | 0, _, _, _, _ => .error .outOfFuel
  | fuel + 1, l0, ls, envId, σ =>
    match eval fuel l0 envId σ with
    | .error e => .error e
    | .ok (car, σ1) =>
      match makeArgs fuel ls envId σ1 with
      | .error e => .error e
      | .ok (args, σ2) =>
        match car with
        | .prim =>
          match primAdd args with
          | .ok v => .ok (v, σ2)
          | .error e => .error e
        | .proc parms body penv => callProcedure fuel parms body penv args σ2
        | _ => .ok (.nil, σ2)
termination_by structural fuel _ _ _ _ => fuel

/-- `makeArgs`: evaluate the operand expressions strictly left to right,
threading the store. -/
def makeArgs : Nat → List Value → Nat → Store → Except Err (List Value × Store)
  | 0, _, _, _ => .error .outOfFuel
  | _ + 1, [], _, σ => .ok ([], σ)
  | fuel + 1, e :: es, envId, σ =>
    match eval fuel e envId σ with
    | .error err => .error err
    | .ok (v, σ1) =>
      match makeArgs fuel es envId σ1 with
      | .error err => .error err
      | .ok (vs, σ2) => .ok (v :: vs, σ2)
termination_by structural fuel _ _ _ => fuel

/-- `Procedure.Call` together with `newEnv`: build the fresh frame
binding the formals to the arguments, link it to the captured frame,
and evaluate the body there.  The fresh frame is appended to the store;
its pointer is the old store length. -/
def callProcedure : Nat → List String → Value → Nat → List Value → Store → Except Err (Value × Store)
  | 0, _, _, _, _, _ => .error .outOfFuel
  | fuel + 1, parms, body, penv, args, σ =>
    match newEnvLoop parms args [] with
    | .error e => .error e
    | .ok bs => eval fuel body σ.length (σ ++ [⟨bs, some penv⟩])
termination_by structural fuel _ _ _ _ _ => fuel

end

/-- One REPL interaction of lis.go starting from a fresh standard
environment: `eval(parse(line), globalEnv)`, projecting the resulting
value.  The fuel `100` is ample for every program considered here. -/
def evalProgram (s : String) : Except Err Value :=
  match parse 100 s with
  | .error e => .error e
  | .ok x =>
    match eval 100 x 0 standardEnv with
    | .error e => .error e
    | .ok (v, _) => .ok v

/-- Reading one expression from a source string (tokenize followed by
`readFromTokens`), with the leftover tokens. -/
def readString (s : String) : Except Err (Value × List String) :=
  readFromTokens 100 (tokenize s)

end Lisgo

namespace Lisgo

/-! ## Type probes used by the application dispatch -/

/-- `isPrim` from lis.go: the type assertion
`x.(func([]interface{})interface{})` succeeding. -/
def isPrim (v : Value) : Bool :=
  match v with
  | .prim => true
  | _ => false

/-- The type assertion `car.(*Procedure)` in the application tail of
`eval` succeeding. -/
def isProcedure (v : Value) : Bool :=
  match v with
  | .proc _ _ _ => true
  | _ => false

/-- The `x.(int)` type assertion used by the `+` primitive succeeding. -/
def Value.isInt (v : Value) : Bool :=
  match v with
  | .int _ => true
  | _ => false

/-- Whether a list head is a symbol naming one of the five special forms
of the `switch` in `eval` (in which case the application tail is never
reached). -/
def isSpecialFormHead (v : Value) : Bool :=
  match v with
  | .sym s => s = "quote" || s = "if" || s = "define" || s = "set!" || s = "lambda"
  | _ => false

/-! ## Map and store lemmas -/

theorem mapGet_mapSet_self (m : List (String × Value)) (k : String) (v : Value) :
    mapGet (mapSet m k v) k = v := by
  induction m with
  | nil => simp [mapGet, mapSet]
  | cons hd tl ih =>
    obtain ⟨k1, v1⟩ := hd
    by_cases h : k1 = k <;> simp [mapGet, mapSet, h, ih]

theorem mapGet_mapSet_ne (m : List (String × Value)) (k k2 : String) (v : Value)
    (h : k ≠ k2) : mapGet (mapSet m k v) k2 = mapGet m k2 := by
  induction m with
  | nil => simp [mapGet, mapSet, h]
  | cons hd tl ih =>
    obtain ⟨k1, v1⟩ := hd
    by_cases h1 : k1 = k
    · subst h1
      simp [mapGet, mapSet, h]
    · simp only [mapSet, if_neg h1]
      by_cases h2 : k1 = k2 <;> simp [mapGet, h2, ih]

theorem length_storeInsert (σ : Store) (i : Nat) (k : String) (v : Value) :
    (storeInsert σ i k v).length = σ.length := by
  simp [storeInsert]

theorem get?_storeInsert_ne (σ : Store) (i j : Nat) (k : String) (v : Value)
    (h : j ≠ i) : (storeInsert σ i k v).get? j = σ.get? j := by
  simp only [storeInsert, List.get?_eq_getElem?]
  rw [List.getElem?_set_ne (fun he => h he.symm)]

theorem get?_storeInsert_self (σ : Store) (i : Nat) (k : String) (v : Value)
    (h : i < σ.length) :
    (storeInsert σ i k v).get? i
      = some ⟨mapSet (getFrame σ i).bindings k v, (getFrame σ i).outer⟩ := by
  simp only [storeInsert, List.get?_eq_getElem?]
  rw [List.getElem?_set_eq_of_lt _ h]

theorem frameRead_storeInsert_self (σ : Store) (i : Nat) (k : String) (v : Value)
    (h : i < σ.length) : frameRead (storeInsert σ i k v) i k = v := by
  have hs := get?_storeInsert_self σ i k v h
  rw [List.get?_eq_getElem?] at hs
  simp [frameRead, getFrame, hs, mapGet_mapSet_self]

end Lisgo

namespace Lisgo

/-! ## `Env.Find` lemmas -/

theorem findAux_le (σ : Store) (v : String) (hWF : WFStore σ) :
    ∀ fuel i, findAux σ fuel i v ≤ i := by
  intro fuel
  induction fuel with
  | zero => intro i; simp [findAux]
  | succ fuel ih =>
    intro i
    simp only [findAux]
    by_cases hnil : (frameRead σ i v).isNil = true
    · simp only [hnil, if_true]
      cases ho : (getFrame σ i).outer with
      | none => exact Nat.le_refl i
      | some j =>
        have hij : j < i := by
          cases hσ : σ.get? i with
          | none =>
            rw [getFrame, hσ] at ho
            simp at ho
          | some fr =>
            apply hWF i fr j hσ
            rw [getFrame, hσ] at ho
            simpa using ho
        exact le_trans (ih j) (Nat.le_of_lt hij)
    · simp [hnil]

theorem findAux_spec (σ : Store) (v : String) (hWF : WFStore σ) :
    ∀ fuel i, i < fuel →
      (frameRead σ (findAux σ fuel i v) v).isNil = false
      ∨ (getFrame σ (findAux σ fuel i v)).outer = none := by
  intro fuel
  induction fuel with
  | zero => intro i h; omega
  | succ fuel ih =>
    intro i hi
    simp only [findAux]
    by_cases hnil : (frameRead σ i v).isNil = true
    · simp only [hnil, if_true]
      cases ho : (getFrame σ i).outer with
      | none => simp [ho]
      | some j =>
        have hij : j < i := by
          cases hσ : σ.get? i with
          | none =>
            rw [getFrame, hσ] at ho
            simp at ho
          | some fr =>
            apply hWF i fr j hσ
            rw [getFrame, hσ] at ho
            simpa using ho
        simp only [ho]
        exact ih j (by omega)
    · simp only [hnil, if_false]
      left
      exact Bool.not_eq_true _ |>.mp hnil

/-- `Find` never walks outward past the starting frame: the result index
is at most the start index (outer links point to earlier frames). -/
theorem Find_le (σ : Store) (i : Nat) (v : String) (hWF : WFStore σ) :
    Find σ i v ≤ i :=
  findAux_le σ v hWF (i + 1) i

/-- `Find` lands either on a frame that binds `v` to a non-nil value, or
on the root of the chain (the frame with no outer pointer). -/
theorem Find_spec (σ : Store) (i : Nat) (v : String) (hWF : WFStore σ) :
    (frameRead σ (Find σ i v) v).isNil = false
    ∨ (getFrame σ (Find σ i v)).outer = none :=
  findAux_spec σ v hWF (i + 1) i (Nat.lt_succ_self i)

end Lisgo
namespace Lisgo

/-! ## Store growth: evaluation never shrinks the frame heap -/

theorem evalFamily_length_mono : ∀ fuel : Nat,
    (∀ x envId σ v σ2, eval fuel x envId σ = .ok (v, σ2) → σ.length ≤ σ2.length)
    ∧ (∀ l0 ls envId σ v σ2, evalApply fuel l0 ls envId σ = .ok (v, σ2) → σ.length ≤ σ2.length)
    ∧ (∀ es envId σ vs σ2, makeArgs fuel es envId σ = .ok (vs, σ2) → σ.length ≤ σ2.length)
    ∧ (∀ parms body penv args σ v σ2,
        callProcedure fuel parms body penv args σ = .ok (v, σ2) → σ.length ≤ σ2.length) := by
  intro fuel
  induction fuel with
  | zero =>
    refine ⟨?_, ?_, ?_, ?_⟩
    · intro x envId σ v σ2 h
      exact absurd h (by simp [eval])
    · intro l0 ls envId σ v σ2 h
      exact absurd h (by simp [evalApply])
    · intro es envId σ vs σ2 h
      exact absurd h (by simp [makeArgs])
    · intro parms body penv args σ v σ2 h
      exact absurd h (by simp [callProcedure])
  | succ fuel ih =>
    obtain ⟨ihE, ihA, ihM, ihC⟩ := ih
    refine ⟨?_, ?_, ?_, ?_⟩
    · intro x envId σ v σ2 h
      cases x with
      | sym s =>
        simp only [eval, Except.ok.injEq, Prod.mk.injEq] at h
        exact h.2 ▸ Nat.le_refl _
      | int n =>
        simp only [eval, Except.ok.injEq, Prod.mk.injEq] at h
        exact h.2 ▸ Nat.le_refl _
      | bool b =>
        simp only [eval, Except.ok.injEq, Prod.mk.injEq] at h
        exact h.2 ▸ Nat.le_refl _
      | prim =>
        simp only [eval, Except.ok.injEq, Prod.mk.injEq] at h
        exact h.2 ▸ Nat.le_refl _
      | proc parms body penv =>
        simp only [eval, Except.ok.injEq, Prod.mk.injEq] at h
        exact h.2 ▸ Nat.le_refl _
      | nil =>
        simp only [eval, Except.ok.injEq, Prod.mk.injEq] at h
        exact h.2 ▸ Nat.le_refl _
      | list l =>
        cases l with
        | nil => exact absurd h (by simp [eval])
        | cons l0 ls =>
          cases l0 with
          | sym s =>
            simp only [eval] at h
            split at h
            · -- quote
              cases hg : listGet (Value.sym s :: ls) 1 with
              | ok qv =>
                simp only [hg, Except.ok.injEq, Prod.mk.injEq] at h
                exact h.2 ▸ Nat.le_refl _
              | error e =>
                simp only [hg] at h
                exact Except.noConfusion h
            · split at h
              · -- if
                cases hg1 : listGet (Value.sym s :: ls) 1 with
                | error e => simp only [hg1] at h; exact Except.noConfusion h
                | ok test =>
                  cases hg2 : listGet (Value.sym s :: ls) 2 with
                  | error e => simp only [hg1, hg2] at h; exact Except.noConfusion h
                  | ok conseq =>
                    cases hg3 : listGet (Value.sym s :: ls) 3 with
                    | error e => simp only [hg1, hg2, hg3] at h; exact Except.noConfusion h
                    | ok alt =>
                      simp only [hg1, hg2, hg3] at h
                      cases he : eval fuel test envId σ with
                      | error e => simp only [he] at h; exact Except.noConfusion h
                      | ok p =>
                        obtain ⟨r, σ1⟩ := p
                        simp only [he] at h
                        split at h
                        · exact le_trans (ihE _ _ _ _ _ he) (ihE _ _ _ _ _ h)
                        · exact le_trans (ihE _ _ _ _ _ he) (ihE _ _ _ _ _ h)
              · split at h
                · -- define
                  cases hg1 : listGet (Value.sym s :: ls) 1 with
                  | error e => simp only [hg1] at h; exact Except.noConfusion h
                  | ok car =>
                    cases hg2 : listGet (Value.sym s :: ls) 2 with
                    | error e => simp only [hg1, hg2] at h; exact Except.noConfusion h
                    | ok cdr =>
                      simp only [hg1, hg2] at h
                      cases car
                      case sym name =>
                        cases he : eval fuel cdr envId σ with
                        | error e => simp only [he] at h; exact Except.noConfusion h
                        | ok p =>
                          obtain ⟨v1, σ1⟩ := p
                          simp only [he, Except.ok.injEq, Prod.mk.injEq] at h
                          calc σ.length ≤ σ1.length := ihE _ _ _ _ _ he
                            _ = σ2.length := by rw [← h.2, length_storeInsert]
                      all_goals exact Except.noConfusion h
                · split at h
                  · -- set!
                    cases hg1 : listGet (Value.sym s :: ls) 1 with
                    | error e => simp only [hg1] at h; exact Except.noConfusion h
                    | ok v1 =>
                      cases hg2 : listGet (Value.sym s :: ls) 2 with
                      | error e => simp only [hg1, hg2] at h; exact Except.noConfusion h
                      | ok exp =>
                        simp only [hg1, hg2] at h
                        cases v1
                        case sym name =>
                          cases he : eval fuel exp envId σ with
                          | error e => simp only [he] at h; exact Except.noConfusion h
                          | ok p =>
                            obtain ⟨val, σ1⟩ := p
                            simp only [he, Except.ok.injEq, Prod.mk.injEq] at h
                            calc σ.length ≤ σ1.length := ihE _ _ _ _ _ he
                              _ = σ2.length := by rw [← h.2, length_storeInsert]
                        all_goals exact Except.noConfusion h
                  · split at h
                    · -- lambda
                      cases hg1 : listGet (Value.sym s :: ls) 1 with
                      | error e => simp only [hg1] at h; exact Except.noConfusion h
                      | ok parms =>
                        cases hg2 : listGet (Value.sym s :: ls) 2 with
                        | error e => simp only [hg1, hg2] at h; exact Except.noConfusion h
                        | ok body =>
                          simp only [hg1, hg2] at h
                          cases ht : toStrings parms with
                          | error e => simp only [ht] at h; exact Except.noConfusion h
                          | ok strs =>
                            simp only [ht, Except.ok.injEq, Prod.mk.injEq] at h
                            exact h.2 ▸ Nat.le_refl _
                    · -- application headed by a non-special symbol
                      exact ihA _ _ _ _ _ _ h
          | int n =>
            simp only [eval] at h
            exact ihA _ _ _ _ _ _ h
          | bool b =>
            simp only [eval] at h
            exact ihA _ _ _ _ _ _ h
          | list l2 =>
            simp only [eval] at h
            exact ihA _ _ _ _ _ _ h
          | prim =>
            simp only [eval] at h
            exact ihA _ _ _ _ _ _ h
          | proc parms body penv =>
            simp only [eval] at h
            exact ihA _ _ _ _ _ _ h
          | nil =>
            simp only [eval] at h
            exact ihA _ _ _ _ _ _ h
    · intro l0 ls envId σ v σ2 h
      simp only [evalApply] at h
      cases he1 : eval fuel l0 envId σ with
      | error e => simp only [he1] at h; exact Except.noConfusion h
      | ok p =>
        obtain ⟨car, σ1⟩ := p
        simp only [he1] at h
        cases he2 : makeArgs fuel ls envId σ1 with
        | error e => simp only [he2] at h; exact Except.noConfusion h
        | ok q =>
          obtain ⟨args, σ2x⟩ := q
          simp only [he2] at h
          have step1 : σ.length ≤ σ2x.length :=
            le_trans (ihE _ _ _ _ _ he1) (ihM _ _ _ _ _ he2)
          cases car
          case prim =>
            cases hp : primAdd args with
            | error e => simp only [hp] at h; exact Except.noConfusion h
            | ok pv =>
              simp only [hp, Except.ok.injEq, Prod.mk.injEq] at h
              exact h.2 ▸ step1
          case proc parms body penv =>
            exact le_trans step1 (ihC _ _ _ _ _ _ _ h)
          all_goals
            simp only [Except.ok.injEq, Prod.mk.injEq] at h
            exact h.2 ▸ step1
    · intro es envId σ vs σ2 h
      cases es with
      | nil =>
        simp only [makeArgs, Except.ok.injEq, Prod.mk.injEq] at h
        exact h.2 ▸ Nat.le_refl _
      | cons e es =>
        simp only [makeArgs] at h
        cases he1 : eval fuel e envId σ with
        | error e2 => simp only [he1] at h; exact Except.noConfusion h
        | ok p =>
          obtain ⟨v1, σ1⟩ := p
          simp only [he1] at h
          cases he2 : makeArgs fuel es envId σ1 with
          | error e2 => simp only [he2] at h; exact Except.noConfusion h
          | ok q =>
            obtain ⟨vs1, σ2x⟩ := q
            simp only [he2, Except.ok.injEq, Prod.mk.injEq] at h
            exact h.2 ▸ le_trans (ihE _ _ _ _ _ he1) (ihM _ _ _ _ _ he2)
    · intro parms body penv args σ v σ2 h
      simp only [callProcedure] at h
      cases hb : newEnvLoop parms args [] with
      | error e => simp only [hb] at h; exact Except.noConfusion h
      | ok bs =>
        simp only [hb] at h
        have hgrow := ihE _ _ _ _ _ h
        simp only [List.length_append, List.length_cons, List.length_nil] at hgrow
        omega

end Lisgo
namespace Lisgo

/-- Store-length monotonicity, `eval` component. -/
theorem eval_length_mono {fuel : Nat} {x : Value} {envId : Nat} {σ : Store}
    {v : Value} {σ2 : Store} (h : eval fuel x envId σ = .ok (v, σ2)) :
    σ.length ≤ σ2.length :=
  (evalFamily_length_mono fuel).1 x envId σ v σ2 h

/-- The global environment is well formed (its single frame has no
outer pointer). -/
theorem wf_standardEnv : WFStore standardEnv := by
  intro i fr j h1 h2
  cases i with
  | zero =>
    simp [standardEnv] at h1
    rw [← h1] at h2
    simp at h2
  | succ n => simp [standardEnv] at h1

/-- C10: `parse` returns the first expression read from the token
stream and silently discards every leftover token; concretely, the
two-form input `"1 2"` parses to `1` with the token `"2"` left unread
and no error reported. -/
theorem c10_parse_discards_trailing_tokens :
    (∀ fuel program v rest,
        readFromTokens fuel (tokenize program) = .ok (v, rest) →
        parse fuel program = .ok v)
    ∧ readFromTokens 100 (tokenize "1 2") = .ok (.int 1, ["2"])
    ∧ parse 100 "1 2" = .ok (.int 1) := by
  refine ⟨?_, rfl, rfl⟩
  intro fuel program v rest h
  simp [parse, h]

/-- C10 witness: the general discard property applied to `"1 2"`. -/
theorem c10_witness : parse 100 "1 2" = .ok (.int 1) :=
  c10_parse_discards_trailing_tokens.1 100 "1 2" (.int 1) ["2"] (by rfl)

/-- C5 (amended): reading `"(1"` does fail, but through the unchecked
`tokens[0]` lookahead (a runtime index-out-of-range panic), not through
the reader's explicit `"unexpected EOF while reading"` check, which
fires only when `readFromTokens` is entered with zero tokens; reading
`")"` fails with the `"unexpected )"` syntax panic; evaluating `"()"`
fails with the `"empty list"` panic. -/
theorem c5_malformed_inputs :
    readString "(1" = .error .indexOutOfRange
    ∧ readString ")" = .error .unexpectedClose
    ∧ evalProgram "()" = .error .emptyList :=
  ⟨rfl, rfl, rfl⟩

/-- C5 counterexample: reading `"(1"` does not produce the
`"unexpected EOF while reading"` SyntaxError the claim names; it dies
on the out-of-range `tokens[0]` lookahead. -/
theorem c5_counterexample :
    readString "(1" = .error .indexOutOfRange
    ∧ readString "(1" ≠ .error .eofWhileReading := by
  refine ⟨rfl, ?_⟩
  intro hcontra
  rw [show readString "(1" = .error .indexOutOfRange from rfl] at hcontra
  exact absurd (Except.error.inj hcontra) (by decide)

/-- C9: evaluating `(define name expr)` evaluates `expr`, then writes
the binding into the current (innermost) frame only — the frame at the
evaluator's own index `i` — leaving every other frame of the store
untouched, and returns the evaluated value. -/
theorem c9_define_targets_current_frame_only
    (fuel : Nat) (name : String) (e : Value) (i : Nat) (σ : Store)
    (val : Value) (σ1 : Store)
    (hi : i < σ.length)
    (he : eval fuel e i σ = .ok (val, σ1)) :
    eval (fuel + 1) (.list [.sym "define", .sym name, e]) i σ
      = .ok (val, storeInsert σ1 i name val)
    ∧ (storeInsert σ1 i name val).get? i
        = some ⟨mapSet (getFrame σ1 i).bindings name val, (getFrame σ1 i).outer⟩
    ∧ (∀ j, j ≠ i → (storeInsert σ1 i name val).get? j = σ1.get? j)
    ∧ frameRead (storeInsert σ1 i name val) i name = val := by
  have hlen : i < σ1.length := lt_of_lt_of_le hi (eval_length_mono he)
  have hread := frameRead_storeInsert_self σ1 i name val hlen
  have hstep : eval (fuel + 1) (.list [.sym "define", .sym name, e]) i σ
      = match eval fuel e i σ with
        | .ok (v, σx) =>
          .ok (frameRead (storeInsert σx i name v) i name, storeInsert σx i name v)
        | .error err => .error err := rfl
  refine ⟨?_, get?_storeInsert_self σ1 i name val hlen,
    fun j hj => get?_storeInsert_ne σ1 i j name val hj, hread⟩
  rw [hstep, he]
  show Except.ok (frameRead (storeInsert σ1 i name val) i name, storeInsert σ1 i name val)
      = Except.ok (val, storeInsert σ1 i name val)
  rw [hread]

/-- C9 witness: `(define a 10)` on the standard environment binds `a`
in the global frame and returns `10`. -/
theorem c9_witness :
    eval 2 (.list [.sym "define", .sym "a", .int 10]) 0 standardEnv
      = .ok (.int 10, storeInsert standardEnv 0 "a" (.int 10)) :=
  (c9_define_targets_current_frame_only 1 "a" (.int 10) 0 standardEnv
      (.int 10) standardEnv (by decide) (by rfl)).1

end Lisgo
namespace Lisgo

/-- C1 (amended): on a well-formed store, when `name` is not bound
(non-nil) anywhere along the environment chain — so `Find` lands on the
chain's root frame and still reads `nil` — evaluating the bare symbol
returns the Go `nil` value with no error, and evaluating
`(set! name expr)` does not fail either: it writes the binding into
that root frame and returns the value.  No UnboundVariableError exists
anywhere in the code. -/
theorem c1_unbound_lookup_and_set
    (σ : Store) (hWF : WFStore σ) (i : Nat) (hi : i < σ.length) (name : String)
    (hunbound : frameRead σ (Find σ i name) name = .nil) :
    (∀ fuel, eval (fuel + 1) (.sym name) i σ = .ok (.nil, σ))
    ∧ (getFrame σ (Find σ i name)).outer = none
    ∧ (∀ fuel e val σ1, eval fuel e i σ = .ok (val, σ1) →
        eval (fuel + 1) (.list [.sym "set!", .sym name, e]) i σ
          = .ok (val, storeInsert σ1 (Find σ i name) name val)) := by
  refine ⟨?_, ?_, ?_⟩
  · intro fuel
    have hstep : eval (fuel + 1) (.sym name) i σ
        = .ok (frameRead σ (Find σ i name) name, σ) := rfl
    rw [hstep, hunbound]
  · rcases Find_spec σ i name hWF with hbound | hroot
    · rw [hunbound] at hbound
      exact absurd hbound (by simp [Value.isNil])
    · exact hroot
  · intro fuel e val σ1 he
    have hr : Find σ i name < σ1.length :=
      lt_of_le_of_lt (Find_le σ i name hWF) (lt_of_lt_of_le hi (eval_length_mono he))
    have hread := frameRead_storeInsert_self σ1 (Find σ i name) name val hr
    have hstep : eval (fuel + 1) (.list [.sym "set!", .sym name, e]) i σ
        = match eval fuel e i σ with
          | .ok (v, σx) =>
            .ok (frameRead (storeInsert σx (Find σ i name) name v) (Find σ i name) name,
              storeInsert σx (Find σ i name) name v)
          | .error err => .error err := rfl
    rw [hstep, he]
    show Except.ok
        (frameRead (storeInsert σ1 (Find σ i name) name val) (Find σ i name) name,
          storeInsert σ1 (Find σ i name) name val)
      = Except.ok (val, storeInsert σ1 (Find σ i name) name val)
    rw [hread]

/-- C1 witness: `(set! z 1)` on the fresh standard environment, where
`z` was never defined, succeeds and writes `z` into the global frame. -/
theorem c1_witness :
    eval 2 (.list [.sym "set!", .sym "z", .int 1]) 0 standardEnv
      = .ok (.int 1, storeInsert standardEnv 0 "z" (.int 1)) :=
  (c1_unbound_lookup_and_set standardEnv wf_standardEnv 0 (by decide) "z"
      (by rfl)).2.2 1 (.int 1) (.int 1) standardEnv (by rfl)

/-- C1 counterexample: evaluating `"(set! z 1)"` in an environment
where `z` was never defined succeeds with value `1` instead of failing
with an UnboundVariableError. -/
theorem c1_counterexample : evalProgram "(set! z 1)" = .ok (.int 1) := rfl

end Lisgo
namespace Lisgo

/-- C3: in both source variants the `if` branch test singles out
exactly the `Boolean` value false: lis.go's double negation
(`isFalse` returns `!b` and the dispatch checks `ok && b`) and
lispycalc.go's direct form (`isFalse` returns `b` and the dispatch
checks `ok && !b`) both evaluate `alt` precisely when the test value is
`Boolean` false, and `conseq` for every other value.  The lis.go
evaluator's `if` case reduces to exactly this branch choice. -/
theorem c3_if_policy_both_variants :
    (∀ r : Value, lisgoTakesAlt r = true ↔ r = .bool false)
    ∧ (∀ r : Value, calcTakesAlt r = true ↔ r = .bool false)
    ∧ (∀ fuel test conseq alt i σ r σ1,
        eval fuel test i σ = .ok (r, σ1) →
        eval (fuel + 1) (.list [.sym "if", test, conseq, alt]) i σ
          = if lisgoTakesAlt r then eval fuel alt i σ1 else eval fuel conseq i σ1)
    ∧ evalProgram "(if false 1 2)" = .ok (.int 2)
    ∧ evalProgram "(if true 1 2)" = .ok (.int 1)
    ∧ evalProgram "(if 0 1 2)" = .ok (.int 1) := by
  refine ⟨?_, ?_, ?_, rfl, rfl, rfl⟩
  · intro r
    cases r with
    | bool b => cases b <;> simp [lisgoTakesAlt, isFalse]
    | int n => simp [lisgoTakesAlt, isFalse]
    | sym s => simp [lisgoTakesAlt, isFalse]
    | list l => simp [lisgoTakesAlt, isFalse]
    | prim => simp [lisgoTakesAlt, isFalse]
    | proc a b c => simp [lisgoTakesAlt, isFalse]
    | nil => simp [lisgoTakesAlt, isFalse]
  · intro r
    cases r with
    | bool b => cases b <;> simp [calcTakesAlt, isFalseCalc]
    | int n => simp [calcTakesAlt, isFalseCalc]
    | sym s => simp [calcTakesAlt, isFalseCalc]
    | list l => simp [calcTakesAlt, isFalseCalc]
    | prim => simp [calcTakesAlt, isFalseCalc]
    | proc a b c => simp [calcTakesAlt, isFalseCalc]
    | nil => simp [calcTakesAlt, isFalseCalc]
  · intro fuel test conseq alt i σ r σ1 he
    have hstep : eval (fuel + 1) (.list [.sym "if", test, conseq, alt]) i σ
        = match eval fuel test i σ with
          | .ok (rx, σx) =>
            if (isFalse rx).2 && (isFalse rx).1 then eval fuel alt i σx
            else eval fuel conseq i σx
          | .error err => .error err := rfl
    rw [hstep, he]
    rfl

/-- C3 witness: the branch-selection law applied to a test that
evaluates to `Boolean` false. -/
theorem c3_witness :
    eval 2 (.list [.sym "if", .bool false, .int 1, .int 2]) 0 standardEnv
      = if lisgoTakesAlt (.bool false) then eval 1 (.int 2) 0 standardEnv
        else eval 1 (.int 1) 0 standardEnv :=
  c3_if_policy_both_variants.2.2.1 1 (.bool false) (.int 1) (.int 2) 0 standardEnv
    (.bool false) standardEnv (by rfl)

/-- C8 (amended): an application whose evaluated head is neither the
primitive function nor a `*Procedure` does not fail: the lis.go
evaluator falls through to `return nil`, so the whole application
yields the Go `nil` value (the argument evaluations' store effects are
kept). -/
theorem c8_non_callable_application_returns_nil :
    (∀ fuel l0 ls i σ σ1 σ2 car args,
        isSpecialFormHead l0 = false →
        eval fuel l0 i σ = .ok (car, σ1) →
        makeArgs fuel ls i σ1 = .ok (args, σ2) →
        isPrim car = false → isProcedure car = false →
        eval (fuel + 2) (.list (l0 :: ls)) i σ = .ok (.nil, σ2))
    ∧ evalProgram "(1 2)" = .ok .nil := by
  refine ⟨?_, rfl⟩
  intro fuel l0 ls i σ σ1 σ2 car args hhead he hargs hnp hnc
  have happ : evalApply (fuel + 1) l0 ls i σ = .ok (.nil, σ2) := by
    simp only [evalApply, he, hargs]
    cases car with
    | prim => simp [isPrim] at hnp
    | proc p b e2 => simp [isProcedure] at hnc
    | int n => rfl
    | sym s => rfl
    | bool b => rfl
    | list l => rfl
    | nil => rfl
  cases l0 with
  | sym s =>
    simp only [isSpecialFormHead, Bool.or_eq_false_iff, decide_eq_false_iff_not] at hhead
    obtain ⟨⟨⟨⟨h1, h2⟩, h3⟩, h4⟩, h5⟩ := hhead
    simp only [eval]
    rw [if_neg h1, if_neg h2, if_neg h3, if_neg h4, if_neg h5]
    exact happ
  | int n => exact happ
  | bool b => exact happ
  | list l => exact happ
  | prim => exact happ
  | proc p b e2 => exact happ
  | nil => exact happ

/-- C8 witness: applying the integer `1` to the argument `2` — a head
that is neither primitive nor procedure — returns `nil` without an
error. -/
theorem c8_witness :
    eval 4 (.list [.int 1, .int 2]) 0 standardEnv = .ok (.nil, standardEnv) :=
  c8_non_callable_application_returns_nil.1 2 (.int 1) [.int 2] 0 standardEnv
    standardEnv standardEnv (.int 1) [.int 2] (by rfl) (by rfl) (by rfl) (by rfl) (by rfl)

/-- C8 counterexample: evaluating `"(1 2)"` — whose evaluated head `1`
is neither a Primitive nor a Closure — succeeds with the `nil` value
instead of failing with a TypeError. -/
theorem c8_counterexample :
    evalProgram "(1 2)" = .ok .nil ∧ evalProgram "(1 2)" ≠ .error .plusNeedsNumbers := by
  refine ⟨rfl, ?_⟩
  intro hcontra
  rw [show evalProgram "(1 2)" = .ok .nil from rfl] at hcontra
  exact Except.noConfusion hcontra

end Lisgo
namespace Lisgo

/-! ## `newEnv` binding-loop lemmas -/

theorem newEnvLoop_short : ∀ (parms : List String) (args : List Value) acc,
    args.length < parms.length → newEnvLoop parms args acc = .error .indexOutOfRange := by
  intro parms
  induction parms with
  | nil => intro args acc h; simp at h
  | cons p ps ih =>
    intro args acc h
    cases args with
    | nil => rfl
    | cons a as =>
      simp only [List.length_cons] at h
      exact ih as (mapSet acc p a) (by omega)

theorem newEnvLoop_ok : ∀ (parms : List String) (args : List Value) acc,
    parms.length ≤ args.length → ∃ bs, newEnvLoop parms args acc = .ok bs := by
  intro parms
  induction parms with
  | nil => intro args acc h; exact ⟨acc, rfl⟩
  | cons p ps ih =>
    intro args acc h
    cases args with
    | nil => simp at h
    | cons a as =>
      simp only [List.length_cons] at h
      exact ih as (mapSet acc p a) (by omega)

theorem newEnvLoop_untouched : ∀ (parms : List String) (args : List Value) acc bs k,
    newEnvLoop parms args acc = .ok bs → k ∉ parms → mapGet bs k = mapGet acc k := by
  intro parms
  induction parms with
  | nil =>
    intro args acc bs k h hk
    injection h with h
    rw [← h]
  | cons p ps ih =>
    intro args acc bs k h hk
    cases args with
    | nil => exact Except.noConfusion h
    | cons a as =>
      have hkp : k ≠ p := fun he => hk (he ▸ List.mem_cons_self p ps)
      have hkps : k ∉ ps := fun hm => hk (List.mem_cons_of_mem p hm)
      rw [ih as (mapSet acc p a) bs k h hkps, mapGet_mapSet_ne acc p k a hkp.symm]

theorem newEnvLoop_positional : ∀ (parms : List String) (args : List Value) acc bs idx,
    parms.Nodup → newEnvLoop parms args acc = .ok bs → idx < parms.length →
    mapGet bs (parms.getD idx "") = args.getD idx Value.nil := by
  intro parms
  induction parms with
  | nil => intro args acc bs idx hnd h hidx; simp at hidx
  | cons p ps ih =>
    intro args acc bs idx hnd h hidx
    rw [List.nodup_cons] at hnd
    cases args with
    | nil => exact Except.noConfusion h
    | cons a as =>
      cases idx with
      | zero =>
        simp only [List.getD_cons_zero]
        rw [newEnvLoop_untouched ps as (mapSet acc p a) bs p h hnd.1,
          mapGet_mapSet_self]
      | succ n =>
        simp only [List.getD_cons_succ]
        exact ih as (mapSet acc p a) bs n hnd.2 h (by simpa using hidx)

/-- C4 (amended): a closure invocation performs no arity check.  With
fewer arguments than formal parameters the binding loop of `newEnv`
dies indexing `args[i]` out of range; with at least as many arguments
as parameters the call always proceeds — extra arguments are silently
ignored — building a fresh frame that binds each formal parameter
positionally to the corresponding argument, whose outer link is the
closure's captured frame, and evaluating the body there. -/
theorem c4_closure_call_has_no_arity_check :
    (∀ fuel parms body penv (args : List Value) σ, args.length < parms.length →
        callProcedure (fuel + 1) parms body penv args σ = .error .indexOutOfRange)
    ∧ (∀ fuel parms body penv args σ bs,
        newEnvLoop parms args [] = .ok bs →
        callProcedure (fuel + 1) parms body penv args σ
          = eval fuel body σ.length (σ ++ [⟨bs, some penv⟩]))
    ∧ (∀ (parms : List String) (args : List Value), parms.length ≤ args.length →
        ∃ bs, newEnvLoop parms args [] = .ok bs
          ∧ (parms.Nodup → ∀ idx, idx < parms.length →
              mapGet bs (parms.getD idx "") = args.getD idx .nil))
    ∧ evalProgram "((lambda (a) a) 1 2)" = .ok (.int 1)
    ∧ evalProgram "((lambda (a b) a) 1)" = .error .indexOutOfRange := by
  refine ⟨?_, ?_, ?_, rfl, rfl⟩
  · intro fuel parms body penv args σ h
    simp only [callProcedure, newEnvLoop_short parms args [] h]
  · intro fuel parms body penv args σ bs h
    simp only [callProcedure, h]
  · intro parms args h
    obtain ⟨bs, hbs⟩ := newEnvLoop_ok parms args [] h
    exact ⟨bs, hbs, fun hnd idx hidx =>
      newEnvLoop_positional parms args [] bs idx hnd hbs hidx⟩

/-- C4 witness: calling a two-parameter closure with one argument dies
with the index-out-of-range panic, not an ArityError. -/
theorem c4_witness :
    callProcedure 1 ["a", "b"] (.sym "a") 0 [.int 1] standardEnv
      = .error .indexOutOfRange :=
  c4_closure_call_has_no_arity_check.1 0 ["a", "b"] (.sym "a") 0 [.int 1]
    standardEnv (by decide)

/-- C4 counterexample: invoking `(lambda (a) a)` with two arguments —
an arity mismatch — succeeds with value `1` instead of failing with an
ArityError; the extra argument is ignored. -/
theorem c4_counterexample :
    evalProgram "((lambda (a) a) 1 2)" = .ok (.int 1)
    ∧ evalProgram "((lambda (a) a) 1 2)" ≠ .error .indexOutOfRange := by
  refine ⟨rfl, ?_⟩
  intro h
  rw [show evalProgram "((lambda (a) a) 1 2)" = .ok (.int 1) from rfl] at h
  exact Except.noConfusion h

end Lisgo
namespace Lisgo

/-- C2 (amended): the `+` primitive inspects only `args[0]` and
`args[1]`.  With two or more arguments whose first two are Integers it
returns their (64-bit) sum and silently ignores every further
argument — so `(+ 1 2 3)` yields `3`, not a TypeError; with fewer than
two arguments it dies indexing out of range; when either of the first
two is not an Integer it panics `"+ needs numbers"`. -/
theorem c2_plus_ignores_extra_args :
    (∀ (n m : Int) (rest : List Value),
        primAdd (.int n :: .int m :: rest) = .ok (.int (wrap64 (n + m))))
    ∧ (∀ args : List Value, args.length < 2 → primAdd args = .error .indexOutOfRange)
    ∧ (∀ (a b : Value) (rest : List Value),
        Value.isInt a = false ∨ Value.isInt b = false →
        primAdd (a :: b :: rest) = .error .plusNeedsNumbers)
    ∧ evalProgram "(+ 1 2)" = .ok (.int 3)
    ∧ evalProgram "(+ 1 2 3)" = .ok (.int 3) := by
  refine ⟨fun n m rest => rfl, ?_, ?_, rfl, rfl⟩
  · intro args h
    match args with
    | [] => rfl
    | [a] => rfl
    | a :: b :: rest => exact absurd h (by simp only [List.length_cons]; omega)
  · intro a b rest h
    rcases h with h | h
    · cases a with
      | int n => simp [Value.isInt] at h
      | sym s => rfl
      | bool b2 => rfl
      | list l => rfl
      | prim => rfl
      | proc p b2 e2 => rfl
      | nil => rfl
    · cases a with
      | int n =>
        cases b with
        | int m => simp [Value.isInt] at h
        | sym s => rfl
        | bool b2 => rfl
        | list l => rfl
        | prim => rfl
        | proc p b2 e2 => rfl
        | nil => rfl
      | sym s => rfl
      | bool b2 => rfl
      | list l => rfl
      | prim => rfl
      | proc p b2 e2 => rfl
      | nil => rfl

/-- C2 witness: the arity and type failures of `+` at concrete inputs. -/
theorem c2_witness :
    primAdd [.int 1] = .error .indexOutOfRange
    ∧ primAdd [.bool true, .int 2] = .error .plusNeedsNumbers :=
  ⟨c2_plus_ignores_extra_args.2.1 [.int 1] (by decide),
   c2_plus_ignores_extra_args.2.2.1 (.bool true) (.int 2) [] (Or.inl (by rfl))⟩

/-- C2 counterexample: `"(+ 1 2 3)"` — three arguments — succeeds with
value `3` instead of failing with a TypeError; the third argument is
never examined. -/
theorem c2_counterexample :
    evalProgram "(+ 1 2 3)" = .ok (.int 3)
    ∧ evalProgram "(+ 1 2 3)" ≠ .error .plusNeedsNumbers := by
  refine ⟨rfl, ?_⟩
  intro h
  rw [show evalProgram "(+ 1 2 3)" = .ok (.int 3) from rfl] at h
  exact Except.noConfusion h

end Lisgo
namespace Lisgo

/-! ## Lexer lemmas: empty tokens -/

theorem regexSpace_unicodeSpace (c : Char) (h : isGoRegexSpace c = true) :
    isGoUnicodeSpace c = true := by
  simp [isGoUnicodeSpace, h]

theorem head_dropWhile_not (p : Char → Bool) :
    ∀ (l : List Char) c rest, l.dropWhile p = c :: rest → p c = false := by
  intro l
  induction l with
  | nil => intro c rest h; simp [List.dropWhile] at h
  | cons a as ih =>
    intro c rest h
    by_cases hp : p a = true
    · rw [List.dropWhile_cons_of_pos hp] at h
      exact ih c rest h
    · rw [List.dropWhile_cons_of_neg hp] at h
      injection h with h1 h2
      rw [← h1]
      exact Bool.not_eq_true _ |>.mp hp

theorem getLast?_dropWhile (p : Char → Bool) :
    ∀ l : List Char, l.dropWhile p ≠ [] → (l.dropWhile p).getLast? = l.getLast? := by
  intro l
  induction l with
  | nil => intro h; simp [List.dropWhile] at h
  | cons a as ih =>
    intro h
    by_cases hp : p a = true
    · rw [List.dropWhile_cons_of_pos hp] at h ⊢
      rw [ih h]
      have has : as ≠ [] := by
        intro he
        rw [he] at h
        simp [List.dropWhile] at h
      cases as with
      | nil => exact absurd rfl has
      | cons b bs => rw [List.getLast?_cons_cons]
    · rw [List.dropWhile_cons_of_neg hp]

/-- The first character surviving `strings.TrimSpace` is not
whitespace. -/
theorem goTrimSpace_head (cs : List Char) (c : Char) (rest : List Char)
    (h : goTrimSpace cs = c :: rest) : isGoUnicodeSpace c = false := by
  unfold goTrimSpace at h
  have h2 : ((cs.dropWhile isGoUnicodeSpace).reverse.dropWhile isGoUnicodeSpace).reverse.head?
      = some c := by rw [h, List.head?_cons]
  rw [List.head?_reverse] at h2
  have hne : (cs.dropWhile isGoUnicodeSpace).reverse.dropWhile isGoUnicodeSpace ≠ [] := by
    intro he
    rw [he] at h2
    simp at h2
  rw [getLast?_dropWhile isGoUnicodeSpace _ hne, List.getLast?_reverse] at h2
  cases hd : cs.dropWhile isGoUnicodeSpace with
  | nil => rw [hd] at h2; simp at h2
  | cons c2 r2 =>
    rw [hd, List.head?_cons] at h2
    injection h2 with h2
    rw [← h2]
    exact head_dropWhile_not isGoUnicodeSpace cs c2 r2 hd

/-- The last character surviving `strings.TrimSpace` is not
whitespace. -/
theorem goTrimSpace_getLast (cs : List Char) (cl : Char)
    (h : (goTrimSpace cs).getLast? = some cl) : isGoUnicodeSpace cl = false := by
  unfold goTrimSpace at h
  rw [List.getLast?_reverse] at h
  cases hd : (cs.dropWhile isGoUnicodeSpace).reverse.dropWhile isGoUnicodeSpace with
  | nil => rw [hd] at h; simp at h
  | cons c2 r2 =>
    rw [hd, List.head?_cons] at h
    injection h with h
    rw [← h]
    exact head_dropWhile_not isGoUnicodeSpace _ c2 r2 hd

theorem stringMk_ne_empty (xs : List Char) (h : xs ≠ []) : String.mk xs ≠ "" := by
  intro he
  apply h
  have h2 : (String.mk xs).data = ("" : String).data := by rw [he]
  simpa using h2

/-- No piece emitted by the whitespace splitter is empty, provided the
input neither starts nor ends with whitespace (the state invariant of
the scan). -/
theorem splitWsAux_mem_ne_empty :
    ∀ (cs : List Char) (state : Option (List Char)) (t : String),
      (∀ cl, cs.getLast? = some cl → isGoRegexSpace cl = false) →
      (match state with
       | some [] => ∃ c rest, cs = c :: rest ∧ isGoRegexSpace c = false
       | some _ => True
       | none => cs ≠ []) →
      t ∈ splitWsAux cs state → t ≠ "" := by
  intro cs
  induction cs with
  | nil =>
    intro state t hlast hstate hmem
    match state, hstate with
    | some [], hstate =>
      obtain ⟨c, rest, hcs, _⟩ := hstate
      exact absurd hcs (by simp)
    | some (a :: acc), _ =>
      simp only [splitWsAux, List.mem_singleton] at hmem
      subst hmem
      exact stringMk_ne_empty _ (by simp)
    | none, hstate => exact absurd rfl hstate
  | cons c rest ih =>
    intro state t hlast hstate hmem
    have hlast_rest : ∀ cl, rest.getLast? = some cl → isGoRegexSpace cl = false := by
      intro cl hcl
      apply hlast cl
      cases rest with
      | nil => simp at hcl
      | cons b bs => rw [List.getLast?_cons_cons]; exact hcl
    have hrest_ne_of_ws : isGoRegexSpace c = true → rest ≠ [] := by
      intro hsp he
      subst he
      have hc := hlast c (by simp)
      rw [hc] at hsp
      exact Bool.noConfusion hsp
    match state, hstate with
    | some [], hstate =>
      obtain ⟨c2, rest2, hcs, hc2⟩ := hstate
      injection hcs with h1 h2
      subst h1
      simp only [splitWsAux, hc2, Bool.false_eq_true, if_false] at hmem
      exact ih (some [c]) t hlast_rest trivial hmem
    | some (a :: acc), _ =>
      by_cases hsp : isGoRegexSpace c = true
      · simp only [splitWsAux, hsp, if_true] at hmem
        rcases List.mem_cons.mp hmem with h1 | h1
        · subst h1
          exact stringMk_ne_empty _ (by simp)
        · exact ih none t hlast_rest (hrest_ne_of_ws hsp) h1
      · have hsp2 : isGoRegexSpace c = false := Bool.not_eq_true _ |>.mp hsp
        simp only [splitWsAux, hsp2, Bool.false_eq_true, if_false] at hmem
        exact ih (some (c :: a :: acc)) t hlast_rest trivial hmem
    | none, hstate =>
      by_cases hsp : isGoRegexSpace c = true
      · simp only [splitWsAux, hsp, if_true] at hmem
        exact ih none t hlast_rest (hrest_ne_of_ws hsp) hmem
      · have hsp2 : isGoRegexSpace c = false := Bool.not_eq_true _ |>.mp hsp
        simp only [splitWsAux, hsp2, Bool.false_eq_true, if_false] at hmem
        exact ih (some [c]) t hlast_rest trivial hmem

/-- C6 (amended): the lexer produces the one-element sequence holding
the empty token — not the empty sequence — for empty or all-whitespace
input, and `parse` then turns that token into the empty-named Symbol
rather than failing; for input that is nonempty after trimming, the
token sequence never contains an empty token. -/
theorem c6_empty_input_tokens :
    tokenize "" = [""]
    ∧ tokenize " " = [""]
    ∧ parse 100 "" = .ok (.sym "")
    ∧ (∀ s : String, goTrimSpace (expandParens s.data) ≠ [] → "" ∉ tokenize s) := by
  refine ⟨rfl, rfl, rfl, ?_⟩
  intro s hne hmem
  have hmem2 : "" ∈ splitWsAux (goTrimSpace (expandParens s.data)) (some []) := hmem
  cases hcase : goTrimSpace (expandParens s.data) with
  | nil => exact hne hcase
  | cons c rest =>
    rw [hcase] at hmem2
    have hcu : isGoUnicodeSpace c = false := goTrimSpace_head _ c rest hcase
    have hcr : isGoRegexSpace c = false := by
      cases hb : isGoRegexSpace c
      · rfl
      · rw [regexSpace_unicodeSpace c hb] at hcu
        exact Bool.noConfusion hcu
    have hlast : ∀ cl, (c :: rest).getLast? = some cl → isGoRegexSpace cl = false := by
      intro cl hcl
      have hu := goTrimSpace_getLast (expandParens s.data) cl (by rw [hcase]; exact hcl)
      cases hb : isGoRegexSpace cl
      · rfl
      · rw [regexSpace_unicodeSpace cl hb] at hu
        exact Bool.noConfusion hu
    exact splitWsAux_mem_ne_empty (c :: rest) (some []) "" hlast ⟨c, rest, rfl, hcr⟩ hmem2 rfl

/-- C6 witness: the no-empty-token property applied to the input
`"a"`. -/
theorem c6_witness : "" ∉ tokenize "a" :=
  c6_empty_input_tokens.2.2.2 "a" (by decide)

/-- C6 counterexample: the empty input tokenizes to the one-element
sequence containing the empty token, not to the empty sequence the
claim states. -/
theorem c6_counterexample : tokenize "" = [""] ∧ tokenize "" ≠ [] := by
  refine ⟨rfl, ?_⟩
  intro h
  rw [show tokenize "" = [""] from rfl] at h
  exact List.noConfusion h

end Lisgo
namespace Lisgo

/-! ## `atom` lemmas -/

theorem scanSign_not_sign (c : Char) (cs : List Char) (h1 : c ≠ '+') (h2 : c ≠ '-') :
    scanSign (c :: cs) = (1, c :: cs) := by
  rw [scanSign.eq_def]
  split
  next r heq => injection heq with hc _; exact absurd hc h1
  next r heq => injection heq with hc _; exact absurd hc h2
  next => rfl

theorem digit_not_unicode_space (c : Char) (h : c.isDigit = true) :
    isGoUnicodeSpace c = false := by
  simp only [isGoUnicodeSpace, isGoRegexSpace, Bool.or_eq_false_iff,
    decide_eq_false_iff_not]
  refine ⟨⟨⟨⟨⟨⟨⟨?_, ?_⟩, ?_⟩, ?_⟩, ?_⟩, ?_⟩, ?_⟩, ?_⟩ <;>
    (intro he; subst he; exact absurd h (by decide))

theorem takeWhile_all (p : Char → Bool) (l : List Char) (h : ∀ c ∈ l, p c = true) :
    l.takeWhile p = l :=
  List.takeWhile_eq_self_iff.mpr h

/-- C7 (amended): `fmt.Sscan` reads an integer PREFIX of the token and
ignores trailing characters, so the Reader produces an Integer exactly
when the token (after the optional sign) starts with a decimal digit
and the scanned value fits in `int64`: `"12abc"` becomes the Integer
`12`, not a Symbol; a token whose first character is not a digit, a
sign, or whitespace always becomes a Symbol with the raw text; and a
full decimal-digit token in range becomes the Integer it denotes. -/
theorem c7_atom_scans_integer_prefix :
    atom "12abc" = .int 12
    ∧ (∀ (t : String) (c : Char) (cs : List Char), t.data = c :: cs →
        c.isDigit = false → c ≠ '+' → c ≠ '-' → isGoUnicodeSpace c = false →
        atom t = .sym t)
    ∧ (∀ ds : List Char, ds ≠ [] → (∀ c ∈ ds, c.isDigit = true) →
        (digitsVal ds : Int) < 2 ^ 63 →
        atom (String.mk ds) = .int (digitsVal ds)) := by
  refine ⟨rfl, ?_, ?_⟩
  · intro t c cs ht hd hplus hminus hsp
    have hscan : sscanInt t = none := by
      simp only [sscanInt, ht]
      rw [List.dropWhile_cons_of_neg (by simp [hsp]), scanSign_not_sign c cs hplus hminus]
      simp [List.takeWhile_cons, hd]
    simp [atom, hscan]
  · intro ds hne hdig hbound
    obtain ⟨d, ds2, rfl⟩ : ∃ d ds2, ds = d :: ds2 := by
      cases ds with
      | nil => exact absurd rfl hne
      | cons d ds2 => exact ⟨d, ds2, rfl⟩
    have hd : d.isDigit = true := hdig d (by simp)
    have hdu : isGoUnicodeSpace d = false := digit_not_unicode_space d hd
    have hdp : d ≠ '+' := by intro he; rw [he] at hd; exact absurd hd (by decide)
    have hdm : d ≠ '-' := by intro he; rw [he] at hd; exact absurd hd (by decide)
    have h63 : (2 : Int) ^ 63 = 9223372036854775808 := by norm_num
    have hscan : sscanInt (String.mk (d :: ds2))
        = some ((digitsVal (d :: ds2) : Int)) := by
      simp only [sscanInt, show (String.mk (d :: ds2)).data = d :: ds2 from rfl]
      rw [List.dropWhile_cons_of_neg (by simp [hdu]), scanSign_not_sign d ds2 hdp hdm]
      simp only []
      rw [takeWhile_all Char.isDigit (d :: ds2) hdig]
      rw [if_neg (by simp)]
      have hcond : (-(2 ^ 63) : Int) ≤ (digitsVal (d :: ds2) : Int)
          ∧ (digitsVal (d :: ds2) : Int) ≤ 2 ^ 63 - 1 := by
        constructor
        · calc (-(2 ^ 63) : Int) ≤ 0 := by norm_num
            _ ≤ (digitsVal (d :: ds2) : Int) := Int.ofNat_nonneg _
        · rw [h63] at hbound ⊢
          omega
      rw [one_mul, if_pos hcond]
    simp [atom, hscan]

/-- C7 witness: the all-digits case applied to the token `"7"`. -/
theorem c7_witness : atom (String.mk ['7']) = .int (digitsVal ['7']) :=
  c7_atom_scans_integer_prefix.2.2 ['7'] (by simp) (by decide) (by decide)

/-- C7 counterexample: the token `"12abc"` — digits followed by
letters — becomes the Integer `12`, not the Symbol the claim
requires. -/
theorem c7_counterexample :
    atom "12abc" = .int 12 ∧ atom "12abc" ≠ .sym "12abc" := by
  refine ⟨rfl, ?_⟩
  intro h
  rw [show atom "12abc" = .int 12 from rfl] at h
  exact Value.noConfusion h

end Lisgo
